import Mathlib

/-!
Verification development for the `ImageCompressor` engine (`rms3.py`):
a DCT block codec, a Haar-wavelet codec, and a PSNR metric.

Real-valued `numpy` arrays are modelled over `ℝ`; machine floats are
idealised as exact reals.  A 2D array is a structure holding its shape
`(h, w)` and a total indexing function.  Python exceptions
(`ZeroDivisionError` in the quantization scaling, `ValueError` raised by
`np.percentile` / a broadcasting failure, `OverflowError` from
`int(np.log2 0)`) are modelled by `Except String`.
-/

/-! ### 1D Haar transform (`haar_transform`, `inverse_haar_transform`) -/

/-- Pairwise averages `(data[2i] + data[2i+1]) / sqrt 2`, i.e. the vector
`(data[::2] + data[1::2]) / np.sqrt(2)` of the source. -/
noncomputable def haar_avgs : List ℝ → List ℝ
  | a :: b :: rest => (a + b) / Real.sqrt 2 :: haar_avgs rest
  | _ => []

/-- Pairwise differences `(data[2i] - data[2i+1]) / sqrt 2`, i.e. the vector
`(data[::2] - data[1::2]) / np.sqrt(2)` of the source. -/
noncomputable def haar_diffs : List ℝ → List ℝ
  | a :: b :: rest => (a - b) / Real.sqrt 2 :: haar_diffs rest
  | _ => []

/-- Odd-length handling of `haar_transform`: when the length is odd the last
element is appended once more (`data = np.append(data, data[-1])`).  In the
odd branch the list is nonempty, so the `getLastD 0` default is never used. -/
noncomputable def haarPad (data : List ℝ) : List ℝ :=
  if data.length % 2 ≠ 0 then data ++ [data.getLastD 0] else data

/-- `haar_transform(data)`: output of even length whose first half holds the
pairwise averages and whose second half holds the pairwise differences
(`output[:length/2] = avg; output[length/2:] = diff`). -/
noncomputable def haar_transform (data : List ℝ) : List ℝ :=
  haar_avgs (haarPad data) ++ haar_diffs (haarPad data)

/-- The write loop of `inverse_haar_transform`: given the first half `as`
(averages) and second half `ds` (differences) it writes
`output[2i] = (data[i] + data[half+i]) / sqrt 2` and
`output[2i+1] = (data[i] - data[half+i]) / sqrt 2` interleaved. -/
noncomputable def inverse_haar_core : List ℝ → List ℝ → List ℝ
  | a :: as, d :: ds =>
      (a + d) / Real.sqrt 2 :: (a - d) / Real.sqrt 2 :: inverse_haar_core as ds
  | _, _ => []

/-- `inverse_haar_transform(data)`: `output = np.zeros(length)` and a loop over
`i < half := length / 2` writing positions `2i` and `2i+1` from positions `i`
and `half + i`.  Positions `2 * half, …, length - 1` (one position when the
length is odd) are never written and keep their initial value `0`. -/
noncomputable def inverse_haar_transform (data : List ℝ) : List ℝ :=
  let half := data.length / 2
  inverse_haar_core (data.take half) ((data.drop half).take half) ++
    List.replicate (data.length - 2 * half) 0

/-! ### Basic lemmas about the 1D transforms -/

/-- Two-at-a-time induction on lists, matching the pairwise recursion of the
Haar helpers. -/
theorem List.twoStepInduction {P : List ℝ → Prop} (h0 : P []) (h1 : ∀ a, P [a])
    (h2 : ∀ a b l, P l → P (a :: b :: l)) : ∀ l, P l
  | [] => h0
  | [a] => h1 a
  | a :: b :: l => h2 a b l (List.twoStepInduction h0 h1 h2 l)

theorem haar_avgs_length (l : List ℝ) : (haar_avgs l).length = l.length / 2 := by
  induction l using List.twoStepInduction with
  | h0 => simp [haar_avgs]
  | h1 a => simp [haar_avgs]
  | h2 a b l ih => simp [haar_avgs, ih]; omega

theorem haar_diffs_length (l : List ℝ) : (haar_diffs l).length = l.length / 2 := by
  induction l using List.twoStepInduction with
  | h0 => simp [haar_diffs]
  | h1 a => simp [haar_diffs]
  | h2 a b l ih => simp [haar_diffs, ih]; omega

theorem haarPad_length_even (data : List ℝ) : (haarPad data).length % 2 = 0 := by
  unfold haarPad
  by_cases h : data.length % 2 ≠ 0 <;> simp [h] <;> omega

theorem haarPad_of_even (data : List ℝ) (h : data.length % 2 = 0) :
    haarPad data = data := by
  simp [haarPad, h]

theorem haar_avgs_getD (l : List ℝ) (i : ℕ) (h : i < l.length / 2) :
    (haar_avgs l).getD i 0 = (l.getD (2 * i) 0 + l.getD (2 * i + 1) 0) / Real.sqrt 2 := by
  induction l using List.twoStepInduction generalizing i with
  | h0 => exact absurd h (by simp)
  | h1 a => exact absurd h (by simp)
  | h2 a b l ih =>
    match i with
    | 0 => simp [haar_avgs]
    | i + 1 =>
      have hi : i < l.length / 2 := by simp at h; omega
      have h2i : 2 * (i + 1) = 2 * i + 1 + 1 := by omega
      simp only [haar_avgs, h2i, List.getD_cons_succ, ih i hi]

theorem haar_diffs_getD (l : List ℝ) (i : ℕ) (h : i < l.length / 2) :
    (haar_diffs l).getD i 0 = (l.getD (2 * i) 0 - l.getD (2 * i + 1) 0) / Real.sqrt 2 := by
  induction l using List.twoStepInduction generalizing i with
  | h0 => exact absurd h (by simp)
  | h1 a => exact absurd h (by simp)
  | h2 a b l ih =>
    match i with
    | 0 => simp [haar_diffs]
    | i + 1 =>
      have hi : i < l.length / 2 := by simp at h; omega
      have h2i : 2 * (i + 1) = 2 * i + 1 + 1 := by omega
      simp only [haar_diffs, h2i, List.getD_cons_succ, ih i hi]

theorem sqrt_two_ne_zero : Real.sqrt 2 ≠ 0 := by positivity

theorem haar_recon_fst (a b : ℝ) :
    ((a + b) / Real.sqrt 2 + (a - b) / Real.sqrt 2) / Real.sqrt 2 = a := by
  have h2 : Real.sqrt 2 * Real.sqrt 2 = 2 := Real.mul_self_sqrt (by norm_num)
  field_simp

theorem haar_recon_snd (a b : ℝ) :
    ((a + b) / Real.sqrt 2 - (a - b) / Real.sqrt 2) / Real.sqrt 2 = b := by
  have h2 : Real.sqrt 2 * Real.sqrt 2 = 2 := Real.mul_self_sqrt (by norm_num)
  field_simp

theorem inverse_haar_core_avgs_diffs (l : List ℝ) (h : l.length % 2 = 0) :
    inverse_haar_core (haar_avgs l) (haar_diffs l) = l := by
  induction l using List.twoStepInduction with
  | h0 => simp [haar_avgs, haar_diffs, inverse_haar_core]
  | h1 a => simp at h
  | h2 a b l ih =>
    have hl : l.length % 2 = 0 := by simp at h; omega
    simp only [haar_avgs, haar_diffs, inverse_haar_core, ih hl,
      haar_recon_fst, haar_recon_snd]

/-! ### 2D images

A `numpy` 2D array is modelled by its shape `(h, w)` together with a total
indexing function; entries at indices outside `[0,h) × [0,w)` are irrelevant. -/

structure Img where
  h : ℕ
  w : ℕ
  px : ℕ → ℕ → ℝ

/-- Padding amount used by both codecs:
`pad = (block_size - height % block_size) % block_size`. -/
def padAmount (n M : ℕ) : ℕ := (M - n % M) % M

/-- `np.pad(a, ((0, pad_h), (0, pad_w)), mode='edge')`: the new rows/columns
replicate the nearest edge sample. -/
noncomputable def padEdge (img : Img) (M : ℕ) : Img :=
  ⟨img.h + padAmount img.h M, img.w + padAmount img.w M,
    fun i j => img.px (min i (img.h - 1)) (min j (img.w - 1))⟩

/-- `a[:H, :W]`: `numpy` slicing clips the requested extent at the array's
actual shape. -/
noncomputable def cropImg (c : Img) (H W : ℕ) : Img :=
  ⟨min c.h H, min c.w W, c.px⟩

/-- `np.clip(a, 0, 255)` applied elementwise. -/
noncomputable def clipImg (c : Img) : Img :=
  ⟨c.h, c.w, fun i j => min (max (c.px i j) 0) 255⟩

/-! ### PSNR metric (`calculate_psnr`) -/

/-- Result of `calculate_psnr`: the sentinel `float('inf')` or a finite real. -/
inductive Psnr where
  | inf : Psnr
  | val : ℝ → Psnr

/-- `numpy` broadcast compatibility of two 2D shapes: each axis must agree or
one side must have extent 1 on it. -/
def broadcastOk (a b : Img) : Prop :=
  (a.h = b.h ∨ a.h = 1 ∨ b.h = 1) ∧ (a.w = b.w ∨ a.w = 1 ∨ b.w = 1)

instance (a b : Img) : Decidable (broadcastOk a b) := by
  unfold broadcastOk; infer_instance

/-- Reading a sample of `g` after broadcasting it to a larger shape: an axis of
extent 1 is repeated. -/
noncomputable def bcastPx (g : Img) (i j : ℕ) : ℝ :=
  g.px (if g.h = 1 then 0 else i) (if g.w = 1 then 0 else j)

/-- `mse = np.mean((original - compressed) ** 2)` over the broadcast shape. -/
noncomputable def mseOf (a b : Img) : ℝ :=
  (∑ i ∈ Finset.range (max a.h b.h), ∑ j ∈ Finset.range (max a.w b.w),
      (bcastPx a i j - bcastPx b i j) ^ 2) /
    ((max a.h b.h : ℝ) * (max a.w b.w : ℝ))

/-- `calculate_psnr(original, compressed)`: `numpy` raises `ValueError` when
the two operands cannot be broadcast together; otherwise `mse == 0` yields
`float('inf')` and any other mse yields `20 * log10(255 / sqrt(mse))`. -/
noncomputable def calculate_psnr (original compressed : Img) : Except String Psnr :=
  if broadcastOk original compressed then
    let mse := mseOf original compressed
    if mse = 0 then .ok .inf
    else .ok (.val (20 * Real.logb 10 (255 / Real.sqrt mse)))
  else .error "ValueError: operands could not be broadcast together"

/-! ### DCT codec (`compress_dct`) -/

/-- The fixed JPEG luminance quantization table of `compress_dct`. -/
def quantBase : List (List ℤ) :=
  [[16, 11, 10, 16, 24, 40, 51, 61],
   [12, 12, 14, 19, 26, 58, 60, 55],
   [14, 13, 16, 24, 40, 57, 69, 56],
   [14, 17, 22, 29, 51, 87, 80, 62],
   [18, 22, 37, 56, 68, 109, 103, 77],
   [24, 35, 55, 64, 81, 104, 113, 92],
   [49, 64, 78, 87, 103, 121, 120, 101],
   [72, 92, 95, 98, 112, 100, 103, 99]]

def quantEntry (i j : ℕ) : ℤ := (quantBase.getD i []).getD j 0

/-- Quality scaling factor: `50.0 / quality` below 50, else `2.0 - quality / 50.0`.
The float arithmetic of the source is idealised as exact rational arithmetic. -/
def dctScale (quality : ℤ) : ℚ :=
  if quality < 50 then 50 / (quality : ℚ) else 2 - (quality : ℚ) / 50

/-- One entry of the scaled quantization table:
`quant_matrix = np.floor(quant_matrix * scale + 0.5)` followed by
`quant_matrix[quant_matrix == 0] = 1`. -/
def scaledQuant (quality : ℤ) (i j : ℕ) : ℤ :=
  let v : ℤ := ⌊(quantEntry i j : ℚ) * dctScale quality + 1 / 2⌋
  if v = 0 then 1 else v

/-- `np.round`: round half to even. -/
noncomputable def roundHalfEven (x : ℝ) : ℤ :=
  if x - ⌊x⌋ < 1 / 2 then ⌊x⌋
  else if 1 / 2 < x - ⌊x⌋ then ⌊x⌋ + 1
  else if ⌊x⌋ % 2 = 0 then ⌊x⌋ else ⌊x⌋ + 1

/-- 1D orthonormal DCT-II over 8 samples (`scipy.fftpack.dct(·, norm='ortho')`). -/
noncomputable def dct1 (x : ℕ → ℝ) (k : ℕ) : ℝ :=
  (if k = 0 then Real.sqrt (1 / 8) else Real.sqrt (2 / 8)) *
    ∑ n ∈ Finset.range 8, x n * Real.cos (Real.pi * k * (2 * n + 1) / 16)

/-- 1D orthonormal DCT-III over 8 samples (`scipy.fftpack.idct(·, norm='ortho')`),
the inverse of `dct1`. -/
noncomputable def idct1 (x : ℕ → ℝ) (k : ℕ) : ℝ :=
  x 0 / Real.sqrt 8 +
    Real.sqrt (2 / 8) *
      ∑ n ∈ Finset.range 7, x (n + 1) * Real.cos (Real.pi * (n + 1) * (2 * k + 1) / 16)

/-- `dct2`: `dct(dct(block.T, norm='ortho').T, norm='ortho')`, i.e. the 1D
transform applied to every column and then to every row. -/
noncomputable def dct2 (B : ℕ → ℕ → ℝ) (u v : ℕ) : ℝ :=
  dct1 (fun b => dct1 (fun a => B a b) u) v

/-- `idct2`: `idct(idct(block.T, norm='ortho').T, norm='ortho')`. -/
noncomputable def idct2 (B : ℕ → ℕ → ℝ) (u v : ℕ) : ℝ :=
  idct1 (fun b => idct1 (fun a => B a b) u) v

/-- Per-block pipeline of `compress_dct`: subtract the 128 bias, 2D DCT,
quantize (`np.round(dct_block / quant_matrix)`), dequantize
(`quantized * quant_matrix`), inverse 2D DCT, add the bias back. -/
noncomputable def dctBlockPipeline (quality : ℤ) (B : ℕ → ℕ → ℝ) (u v : ℕ) : ℝ :=
  idct2
    (fun a b =>
      (roundHalfEven (dct2 (fun r c => B r c - 128) a b / (scaledQuant quality a b : ℝ)) : ℝ) *
        (scaledQuant quality a b : ℝ))
    u v + 128

/-- `compress_dct(quality)`: `quality = 0` hits `scale = 50.0 / quality` and
raises `ZeroDivisionError`; otherwise the image is edge-padded to a multiple
of 8, every 8×8 tile is processed independently, and the result is cropped
back to the original shape and clipped to `[0, 255]`.  The tile containing
pixel `(i, j)` starts at `(8 * (i / 8), 8 * (j / 8))`. -/
noncomputable def compress_dct (img : Img) (quality : ℤ) : Except String Img :=
  if quality = 0 then .error "ZeroDivisionError: float division by zero"
  else
    let padded := padEdge img 8
    let processed : Img :=
      ⟨padded.h, padded.w, fun i j =>
        dctBlockPipeline quality
          (fun u v => padded.px (8 * (i / 8) + u) (8 * (j / 8) + v)) (i % 8) (j % 8)⟩
    .ok (clipImg (cropImg processed img.h img.w))

/-! ### Wavelet codec (`compress_dwt`) -/

/-- `levels = min(3, int(np.log2(min(height, width))))`.  For a positive
argument `int(np.log2 n)` is the floor base-2 logarithm, i.e. `Nat.log2`. -/
def dwtLevels (img : Img) : ℕ := min 3 (Nat.log2 (min img.h img.w))

/-- Edge padding of `compress_dwt` to a multiple of `target_size = 2 ** levels`. -/
noncomputable def dwtPad (img : Img) : Img := padEdge img (2 ^ dwtLevels img)

/-- `dwt2` on the top-left `h × w` region of an index function: the 1D Haar
transform applied to every row, then to every column of the row-transformed
result. -/
noncomputable def dwt2Px (px : ℕ → ℕ → ℝ) (h w : ℕ) : ℕ → ℕ → ℝ :=
  let rowsDone := fun i j => (haar_transform (List.ofFn fun b : Fin w => px i b)).getD j 0
  fun i j => (haar_transform (List.ofFn fun a : Fin h => rowsDone a j)).getD i 0

/-- `idwt2` on the top-left `h × w` region: the inverse 1D Haar transform
applied to every column, then to every row. -/
noncomputable def idwt2Px (px : ℕ → ℕ → ℝ) (h w : ℕ) : ℕ → ℕ → ℝ :=
  let colsDone := fun i j => (inverse_haar_transform (List.ofFn fun a : Fin h => px a j)).getD i 0
  fun i j => (inverse_haar_transform (List.ofFn fun b : Fin w => colsDone i b)).getD j 0

/-- In-place region assignment `c[:h', :w'] = f`. -/
noncomputable def writeRegion (c : Img) (h' w' : ℕ) (f : ℕ → ℕ → ℝ) : Img :=
  ⟨c.h, c.w, fun i j => if i < h' ∧ j < w' then f i j else c.px i j⟩

/-- One forward level: `if h >= 2 and w >= 2: coeffs[:h, :w] = dwt2(block)`.
When `h'` or `w'` is odd, `haar_transform` lengthens the odd axis by one, so
the `numpy` region assignment fails with a shape-mismatch `ValueError`; this
cannot happen for the dimensions reached from `compress_dwt`. -/
noncomputable def dwtStep (c : Img) (h' w' : ℕ) : Except String Img :=
  if 2 ≤ h' ∧ 2 ≤ w' then
    if h' % 2 = 0 ∧ w' % 2 = 0 then .ok (writeRegion c h' w' (dwt2Px c.px h' w'))
    else .error "ValueError: could not broadcast input array"
  else .ok c

/-- The forward loop `for level in range(levels)` over the padded shape
`H × W`: level `n` transforms the `H / 2**n × W / 2**n` top-left region. -/
noncomputable def forwardSteps (c : Img) (H W : ℕ) : ℕ → Except String Img
  | 0 => .ok c
  | n + 1 =>
    match forwardSteps c H W n with
    | .error e => .error e
    | .ok c' => dwtStep c' (H / 2 ^ n) (W / 2 ^ n)

/-- One inverse level: `if h >= 2 and w >= 2: rec[:h, :w] = idwt2(block)`.
`inverse_haar_transform` preserves lengths, so no shape mismatch is possible. -/
noncomputable def idwtStep (c : Img) (h' w' : ℕ) : Img :=
  if 2 ≤ h' ∧ 2 ≤ w' then writeRegion c h' w' (idwt2Px c.px h' w') else c

/-- The inverse loop `for level in range(levels - 1, -1, -1)`: deepest level
first, then back up to level 0. -/
noncomputable def inverseSteps (c : Img) (H W : ℕ) : ℕ → Img
  | 0 => c
  | n + 1 => inverseSteps (idwtStep c (H / 2 ^ n) (W / 2 ^ n)) H W n

/-- `np.abs(coeffs)` flattened in row-major order, as fed to `np.percentile`. -/
noncomputable def absFlatten (c : Img) : List ℝ :=
  ((List.range c.h).map fun i => (List.range c.w).map fun j => |c.px i j|).flatten

/-- `np.percentile(values, p)` with the default linear-interpolation method:
on the ascending sort, `rank = p * (n - 1) / 100`, and the result interpolates
between the neighbouring order statistics. -/
noncomputable def npPercentile (l : List ℝ) (p : ℝ) : ℝ :=
  let s := List.insertionSort (· ≤ ·) l
  let rank : ℝ := p * ((l.length : ℝ) - 1) / 100
  let k : ℤ := ⌊rank⌋
  let lower := s.getD k.toNat 0
  let upper := s.getD (min (k.toNat + 1) (l.length - 1)) 0
  lower + (rank - (k : ℝ)) * (upper - lower)

/-- `threshold = np.percentile(np.abs(coeffs), 100 - keep_percent)`. -/
noncomputable def dwtThresholdValue (coeffs : Img) (quality : ℤ) : ℝ :=
  npPercentile (absFlatten coeffs) ((100 - quality : ℤ) : ℝ)

/-- `coeffs_thresholded[np.abs(coeffs) < threshold] = 0`: coefficients whose
absolute value is strictly below the threshold become 0, all others are kept. -/
noncomputable def thresholdImg (coeffs : Img) (quality : ℤ) : Img :=
  ⟨coeffs.h, coeffs.w, fun i j =>
    if |coeffs.px i j| < dwtThresholdValue coeffs quality then 0 else coeffs.px i j⟩

/-- `coeffs_before = np.count_nonzero(coeffs)`: the number of nonzero samples
of the 2D grid (a Python `int`). -/
noncomputable def countNonzero (c : Img) : ℕ :=
  (((List.range c.h).map fun i => (List.range c.w).map fun j => c.px i j).flatten.filter
    fun x => decide (x ≠ 0)).length

/-- `compress_dwt(quality)`: `int(np.log2(0))` raises `OverflowError` when the
smaller dimension is 0; the image is edge-padded to a multiple of
`2 ** levels`, fully decomposed, thresholded (where `np.percentile` raises
`ValueError` when `100 - quality` is outside `[0, 100]`), inverse-decomposed,
cropped to the original shape and clipped to `[0, 255]`.  Between the
thresholding and the inverse loop the source logs the discard ratio
`100 * (1 - coeffs_after / coeffs_before)` inside an eagerly evaluated
f-string; `coeffs_before` and `coeffs_after` are Python ints, so when the
coefficient grid is entirely zero (`coeffs_before == 0`) this integer
division is `0 / 0` and raises `ZeroDivisionError` before the inverse
transform runs. -/
noncomputable def compress_dwt (img : Img) (quality : ℤ) : Except String Img :=
  if min img.h img.w = 0 then
    .error "OverflowError: cannot convert float infinity to integer"
  else
    let levels := dwtLevels img
    let padded := dwtPad img
    match forwardSteps padded padded.h padded.w levels with
    | .error e => .error e
    | .ok coeffs =>
      if 0 ≤ 100 - quality ∧ 100 - quality ≤ 100 then
        if countNonzero coeffs = 0 then
          .error "ZeroDivisionError: division by zero"
        else
          .ok (clipImg (cropImg
            (inverseSteps (thresholdImg coeffs quality) padded.h padded.w levels)
            img.h img.w))
      else .error "ValueError: Percentiles must be in the range 0 to 100"

/-! ### Supporting lemmas -/

theorem padAmount_lt (n M : ℕ) (hM : 0 < M) : padAmount n M < M :=
  Nat.mod_lt _ hM

theorem padAmount_mod (n M : ℕ) (hM : 0 < M) : (n + padAmount n M) % M = 0 := by
  unfold padAmount
  rcases Nat.eq_zero_or_pos (n % M) with h | h
  · rw [h, Nat.sub_zero, Nat.mod_self, Nat.add_zero]
    exact h
  · have hlt : n % M < M := Nat.mod_lt _ hM
    have hpad : (M - n % M) % M = M - n % M := Nat.mod_eq_of_lt (by omega)
    have hsum : n % M + (M - n % M) = M := by omega
    rw [hpad, Nat.add_mod, hpad, hsum, Nat.mod_self]

theorem padAmount_dvd (n M : ℕ) (hM : 0 < M) : M ∣ n + padAmount n M :=
  Nat.dvd_of_mod_eq_zero (padAmount_mod n M hM)

theorem padAmount_least (n M : ℕ) (hM : 0 < M) (p : ℕ) (hp : M ∣ n + p) :
    padAmount n M ≤ p := by
  by_contra hlt
  push_neg at hlt
  have hd : M ∣ (n + padAmount n M) - (n + p) := Nat.dvd_sub' (padAmount_dvd n M hM) hp
  have hpos : 0 < (n + padAmount n M) - (n + p) := by omega
  have hle : M ≤ (n + padAmount n M) - (n + p) := Nat.le_of_dvd hpos hd
  have := padAmount_lt n M hM
  omega

theorem writeRegion_h (c : Img) (h' w' : ℕ) (f : ℕ → ℕ → ℝ) :
    (writeRegion c h' w' f).h = c.h := rfl

theorem writeRegion_w (c : Img) (h' w' : ℕ) (f : ℕ → ℕ → ℝ) :
    (writeRegion c h' w' f).w = c.w := rfl

theorem forwardSteps_ok (c : Img) (H W : ℕ) :
    ∀ n, 2 ^ n ∣ H → 2 ^ n ∣ W →
      ∃ c', forwardSteps c H W n = .ok c' ∧ c'.h = c.h ∧ c'.w = c.w := by
  intro n
  induction n with
  | zero => exact fun _ _ => ⟨c, rfl, rfl, rfl⟩
  | succ n ih =>
    intro hH hW
    have hH' : 2 ^ n ∣ H := dvd_trans (pow_dvd_pow 2 (Nat.le_succ n)) hH
    have hW' : 2 ^ n ∣ W := dvd_trans (pow_dvd_pow 2 (Nat.le_succ n)) hW
    obtain ⟨c', hc', hh, hw⟩ := ih hH' hW'
    have hpow : 0 < (2 : ℕ) ^ n := Nat.pos_pow_of_pos n (by norm_num)
    have hHe : H / 2 ^ n % 2 = 0 := by
      obtain ⟨m, hm⟩ := hH
      have : H / 2 ^ n = 2 * m := by
        rw [hm, pow_succ, Nat.mul_assoc]
        exact Nat.mul_div_cancel_left _ hpow
      omega
    have hWe : W / 2 ^ n % 2 = 0 := by
      obtain ⟨m, hm⟩ := hW
      have : W / 2 ^ n = 2 * m := by
        rw [hm, pow_succ, Nat.mul_assoc]
        exact Nat.mul_div_cancel_left _ hpow
      omega
    simp only [forwardSteps, hc']
    unfold dwtStep
    by_cases hge : 2 ≤ H / 2 ^ n ∧ 2 ≤ W / 2 ^ n
    · rw [if_pos hge, if_pos ⟨hHe, hWe⟩]
      exact ⟨_, rfl, hh, hw⟩
    · rw [if_neg hge]
      exact ⟨c', rfl, hh, hw⟩

theorem idwtStep_h (c : Img) (h' w' : ℕ) : (idwtStep c h' w').h = c.h := by
  unfold idwtStep
  by_cases hge : 2 ≤ h' ∧ 2 ≤ w' <;> simp [hge, writeRegion_h]

theorem idwtStep_w (c : Img) (h' w' : ℕ) : (idwtStep c h' w').w = c.w := by
  unfold idwtStep
  by_cases hge : 2 ≤ h' ∧ 2 ≤ w' <;> simp [hge, writeRegion_w]

theorem inverseSteps_shape (H W : ℕ) :
    ∀ (n : ℕ) (c : Img), (inverseSteps c H W n).h = c.h ∧ (inverseSteps c H W n).w = c.w := by
  intro n
  induction n with
  | zero => exact fun c => ⟨rfl, rfl⟩
  | succ n ih =>
    intro c
    have := ih (idwtStep c (H / 2 ^ n) (W / 2 ^ n))
    simp only [inverseSteps]
    exact ⟨this.1.trans (idwtStep_h c _ _), this.2.trans (idwtStep_w c _ _)⟩

theorem inverse_haar_core_length :
    ∀ u v : List ℝ, (inverse_haar_core u v).length = 2 * min u.length v.length := by
  intro u
  induction u with
  | nil => intro v; simp [inverse_haar_core]
  | cons a as ih =>
    intro v
    cases v with
    | nil => simp [inverse_haar_core]
    | cons d ds =>
      simp only [inverse_haar_core, List.length_cons, ih ds]
      omega

theorem mseOf_self (a : Img) : mseOf a a = 0 := by
  simp [mseOf]

/-! ### Claims about the 1D Haar transforms -/

/-- Claim C2: for every even-length 1D sequence `x`,
`inverse_haar_transform(haar_transform(x))` equals `x`: the inverse step is
the exact algebraic inverse of the forward step. -/
theorem inverse_haar_of_haar (x : List ℝ) (hx : Even x.length) :
    inverse_haar_transform (haar_transform x) = x := by
  have hmod : x.length % 2 = 0 := Nat.even_iff.mp hx
  have hpadx : haarPad x = x := haarPad_of_even x hmod
  have hA : (haar_avgs x).length = x.length / 2 := haar_avgs_length x
  have hD : (haar_diffs x).length = x.length / 2 := haar_diffs_length x
  have hlen : (haar_avgs x ++ haar_diffs x).length = x.length := by
    rw [List.length_append, hA, hD]; omega
  have hhalf : (haar_avgs x ++ haar_diffs x).length / 2 = (haar_avgs x).length := by
    rw [hlen]; exact hA.symm
  unfold haar_transform
  rw [hpadx]
  simp only [inverse_haar_transform, hhalf]
  rw [List.take_left, List.drop_left, List.take_of_length_le (le_of_eq (hD.trans hA.symm))]
  have hz : (haar_avgs x ++ haar_diffs x).length - 2 * (haar_avgs x).length = 0 := by
    rw [hlen, hA]; omega
  rw [hz, List.replicate_zero, List.append_nil]
  exact inverse_haar_core_avgs_diffs x hmod

/-- Witness for C2 at the concrete even-length input `[1, 2]`. -/
theorem inverse_haar_of_haar_witness :
    Even ([1, 2] : List ℝ).length ∧
      inverse_haar_transform (haar_transform [1, 2]) = [1, 2] :=
  ⟨by decide, inverse_haar_of_haar [1, 2] (by decide)⟩

/-- Claim C9: `haar_transform` first duplicates the last element when the
length is odd; on the resulting even-length sequence `p = haarPad data` it
produces an output of length `p.length` whose first half holds the pairwise
averages `(p[2i] + p[2i+1]) / sqrt 2` and whose second half holds the pairwise
differences `(p[2i] - p[2i+1]) / sqrt 2`, in order. -/
theorem haar_transform_entries (data : List ℝ) (i : ℕ)
    (hi : i < (haarPad data).length / 2) :
    (haar_transform data).length = (haarPad data).length ∧
    (haarPad data).length % 2 = 0 ∧
    (data.length % 2 = 0 → haarPad data = data) ∧
    (data.length % 2 ≠ 0 → haarPad data = data ++ [data.getLastD 0]) ∧
    (haar_transform data).getD i 0 =
      ((haarPad data).getD (2 * i) 0 + (haarPad data).getD (2 * i + 1) 0) / Real.sqrt 2 ∧
    (haar_transform data).getD ((haarPad data).length / 2 + i) 0 =
      ((haarPad data).getD (2 * i) 0 - (haarPad data).getD (2 * i + 1) 0) / Real.sqrt 2 := by
  have hev := haarPad_length_even data
  have hA := haar_avgs_length (haarPad data)
  have hD := haar_diffs_length (haarPad data)
  refine ⟨?_, hev, fun h => haarPad_of_even data h, fun h => by simp [haarPad, h], ?_, ?_⟩
  · rw [haar_transform, List.length_append, hA, hD]; omega
  · rw [haar_transform, List.getD_append _ _ _ _ (by rw [hA]; exact hi)]
    exact haar_avgs_getD (haarPad data) i hi
  · rw [haar_transform, List.getD_append_right _ _ _ _ (by rw [hA]; omega)]
    rw [hA, Nat.add_sub_cancel_left]
    exact haar_diffs_getD (haarPad data) i hi

/-- Witness for C9 at the odd-length input `[1, 2, 3]` and index `i = 0`. -/
theorem haar_transform_entries_witness :
    0 < (haarPad [1, 2, 3] : List ℝ).length / 2 ∧
      ((haar_transform [1, 2, 3] : List ℝ).length = (haarPad [1, 2, 3] : List ℝ).length ∧
        (haarPad [1, 2, 3] : List ℝ).length % 2 = 0 ∧
        (([1, 2, 3] : List ℝ).length % 2 = 0 → haarPad [1, 2, 3] = [1, 2, 3]) ∧
        (([1, 2, 3] : List ℝ).length % 2 ≠ 0 →
          haarPad [1, 2, 3] = [1, 2, 3] ++ [([1, 2, 3] : List ℝ).getLastD 0]) ∧
        (haar_transform [1, 2, 3] : List ℝ).getD 0 0 =
          ((haarPad [1, 2, 3] : List ℝ).getD 0 0 + (haarPad [1, 2, 3] : List ℝ).getD 1 0) /
            Real.sqrt 2 ∧
        (haar_transform [1, 2, 3] : List ℝ).getD ((haarPad [1, 2, 3] : List ℝ).length / 2 + 0) 0 =
          ((haarPad [1, 2, 3] : List ℝ).getD 0 0 - (haarPad [1, 2, 3] : List ℝ).getD 1 0) /
            Real.sqrt 2) := by
  have h0 : 0 < (haarPad [1, 2, 3] : List ℝ).length / 2 := by
    simp [haarPad]
  refine ⟨h0, ?_⟩
  have := haar_transform_entries ([1, 2, 3] : List ℝ) 0 h0
  simpa using this

/-- Claim C10: on an odd-length input of length `N`, `inverse_haar_transform`
returns a sequence of the same length `N`, its last element is always `0`, and
the input's last element is never read (replacing it does not change the
output). -/
theorem inverse_haar_odd (xs : List ℝ) (v w : ℝ) (hx : Even xs.length) :
    (inverse_haar_transform (xs ++ [v])).length = xs.length + 1 ∧
    (inverse_haar_transform (xs ++ [v])).getLast? = some 0 ∧
    inverse_haar_transform (xs ++ [v]) = inverse_haar_transform (xs ++ [w]) := by
  obtain ⟨m, hm⟩ := hx
  have hm' : xs.length = 2 * m := by omega
  have htake : ∀ u : ℝ, inverse_haar_transform (xs ++ [u]) =
      inverse_haar_core (xs.take m) (xs.drop m) ++ [(0 : ℝ)] := by
    intro u
    have hlen : (xs ++ [u]).length = 2 * m + 1 := by simp [hm']
    have hdlen : (xs.drop m).length = m := by rw [List.length_drop, hm']; omega
    have h2 : (xs.drop m ++ [u]).take m = xs.drop m := List.take_left' hdlen
    simp only [inverse_haar_transform, hlen]
    rw [show (2 * m + 1) / 2 = m by omega]
    rw [List.take_append_of_le_length (by omega), List.drop_append_of_le_length (by omega), h2]
    rw [show 2 * m + 1 - 2 * m = 1 by omega, List.replicate_one]
  refine ⟨?_, ?_, ?_⟩
  · rw [htake v, List.length_append, inverse_haar_core_length]
    rw [List.length_take, List.length_drop, hm']
    simp; omega
  · rw [htake v]
    simp
  · rw [htake v, htake w]

/-- Witness for C10 at the odd-length input `[5, 6, 7]` (replacing the last
element 7 by 9). -/
theorem inverse_haar_odd_witness :
    Even ([5, 6] : List ℝ).length ∧
      ((inverse_haar_transform (([5, 6] : List ℝ) ++ [7])).length = ([5, 6] : List ℝ).length + 1 ∧
        (inverse_haar_transform (([5, 6] : List ℝ) ++ [7])).getLast? = some 0 ∧
        inverse_haar_transform (([5, 6] : List ℝ) ++ [7]) =
          inverse_haar_transform (([5, 6] : List ℝ) ++ [9])) :=
  ⟨by decide, inverse_haar_odd [5, 6] 7 9 (by decide)⟩

/-! ### Claims about the quantization table and the PSNR metric -/

/-- Claim C3: for quality in `(0, 100]` the scaled quantization table equals
`floor(Q * scale + 0.5)` applied entry-wise to the JPEG luminance table, with
`scale = 50 / quality` below 50 and `2 - quality / 50` otherwise, every zero
entry replaced by 1; consequently no entry of the scaled table is zero. -/
theorem scaledQuant_spec (q : ℤ) (i j : ℕ) (_hq0 : 0 < q) (_hq1 : q ≤ 100) :
    scaledQuant q i j =
      (if ⌊(quantEntry i j : ℚ) * (if q < 50 then 50 / (q : ℚ) else 2 - (q : ℚ) / 50) + 1 / 2⌋ = 0
        then 1
        else
          ⌊(quantEntry i j : ℚ) * (if q < 50 then 50 / (q : ℚ) else 2 - (q : ℚ) / 50) + 1 / 2⌋) ∧
    scaledQuant q i j ≠ 0 := by
  constructor
  · rfl
  · simp only [scaledQuant]
    by_cases hz : ⌊(quantEntry i j : ℚ) * dctScale q + 1 / 2⌋ = 0
    · rw [if_pos hz]
      decide
    · rw [if_neg hz]
      exact hz

/-- Witness for C3 at quality 50 and entry `(0, 0)`. -/
theorem scaledQuant_spec_witness :
    (0 : ℤ) < 50 ∧ (50 : ℤ) ≤ 100 ∧
      (scaledQuant 50 0 0 =
          (if ⌊(quantEntry 0 0 : ℚ) *
                  (if (50 : ℤ) < 50 then 50 / ((50 : ℤ) : ℚ) else 2 - ((50 : ℤ) : ℚ) / 50) +
                1 / 2⌋ = 0
            then 1
            else
              ⌊(quantEntry 0 0 : ℚ) *
                  (if (50 : ℤ) < 50 then 50 / ((50 : ℤ) : ℚ) else 2 - ((50 : ℤ) : ℚ) / 50) +
                1 / 2⌋) ∧
        scaledQuant 50 0 0 ≠ 0) :=
  ⟨by decide, by decide, scaledQuant_spec 50 0 0 (by decide) (by decide)⟩

/-- Claim C4: on grids of identical (nonempty) shape, `calculate_psnr` returns
positive infinity exactly when the mean squared error is zero, otherwise
`20 * log10(255 / sqrt mse)`; in particular the PSNR of an image against
itself is positive infinity. -/
theorem calculate_psnr_spec (a b : Img) (_ha : 1 ≤ a.h) (_hw : 1 ≤ a.w)
    (hh : a.h = b.h) (hww : a.w = b.w) :
    (calculate_psnr a b = .ok .inf ↔ mseOf a b = 0) ∧
    (mseOf a b ≠ 0 →
      calculate_psnr a b = .ok (.val (20 * Real.logb 10 (255 / Real.sqrt (mseOf a b))))) ∧
    calculate_psnr a a = .ok .inf := by
  have hbc : broadcastOk a b := ⟨Or.inl hh, Or.inl hww⟩
  have hbca : broadcastOk a a := ⟨Or.inl rfl, Or.inl rfl⟩
  refine ⟨?_, ?_, ?_⟩
  · unfold calculate_psnr
    rw [if_pos hbc]
    by_cases hm : mseOf a b = 0
    · simp [hm]
    · simp [hm]
  · intro hm
    unfold calculate_psnr
    rw [if_pos hbc, if_neg hm]
  · unfold calculate_psnr
    rw [if_pos hbca, if_pos (mseOf_self a)]

/-- Witness for C4 at a pair of identical 1×1 grids. -/
theorem calculate_psnr_spec_witness :
    1 ≤ (Img.mk 1 1 fun _ _ => 37).h ∧ 1 ≤ (Img.mk 1 1 fun _ _ => 37).w ∧
      ((calculate_psnr (Img.mk 1 1 fun _ _ => 37) (Img.mk 1 1 fun _ _ => 37) = .ok .inf ↔
          mseOf (Img.mk 1 1 fun _ _ => 37) (Img.mk 1 1 fun _ _ => 37) = 0) ∧
        (mseOf (Img.mk 1 1 fun _ _ => 37) (Img.mk 1 1 fun _ _ => 37) ≠ 0 →
          calculate_psnr (Img.mk 1 1 fun _ _ => 37) (Img.mk 1 1 fun _ _ => 37) =
            .ok (.val (20 * Real.logb 10 (255 / Real.sqrt
              (mseOf (Img.mk 1 1 fun _ _ => 37) (Img.mk 1 1 fun _ _ => 37)))))) ∧
        calculate_psnr (Img.mk 1 1 fun _ _ => 37) (Img.mk 1 1 fun _ _ => 37) = .ok .inf) :=
  ⟨by decide, by decide,
    calculate_psnr_spec (Img.mk 1 1 fun _ _ => 37) (Img.mk 1 1 fun _ _ => 37)
      (by decide) (by decide) rfl rfl⟩

/-- Amended claim C8: `calculate_psnr` fails exactly when the two shapes are
not `numpy`-broadcast-compatible; shapes that differ but are broadcastable
(an axis of extent 1 against a longer one) are silently broadcast and a value
is returned. -/
theorem calculate_psnr_broadcast (a b : Img) :
    (calculate_psnr a b).isOk = true ↔ broadcastOk a b := by
  unfold calculate_psnr
  by_cases hbc : broadcastOk a b
  · rw [if_pos hbc]
    by_cases hm : mseOf a b = 0
    · simp [hm, hbc, Except.isOk, Except.toBool]
    · simp [hm, hbc, Except.isOk, Except.toBool]
  · rw [if_neg hbc]
    simp [hbc, Except.isOk, Except.toBool]

/-- Counterexample to claim C8: the shapes `2 × 2` and `1 × 2` differ, yet
`calculate_psnr` does not fail — broadcasting applies and it returns a number
(here `inf`, since the broadcast difference is zero). -/
theorem calculate_psnr_shape_counterexample :
    ¬ ((Img.mk 2 2 fun _ _ => 0).h = (Img.mk 1 2 fun _ _ => 0).h ∧
        (Img.mk 2 2 fun _ _ => 0).w = (Img.mk 1 2 fun _ _ => 0).w) ∧
      calculate_psnr (Img.mk 2 2 fun _ _ => 0) (Img.mk 1 2 fun _ _ => 0) = .ok .inf := by
  constructor
  · intro h
    exact absurd h.1 (by decide)
  · have hbc : broadcastOk (Img.mk 2 2 fun _ _ => 0) (Img.mk 1 2 fun _ _ => 0) :=
      ⟨Or.inr (Or.inr rfl), Or.inl rfl⟩
    have hm : mseOf (Img.mk 2 2 fun _ _ => 0) (Img.mk 1 2 fun _ _ => 0) = 0 := by
      simp [mseOf, bcastPx]
    unfold calculate_psnr
    rw [if_pos hbc, if_pos hm]

/-! ### Claims about the two codecs -/

/-- The all-zero 1×1 image.  Its full Haar decomposition is identically zero,
so `compress_dwt` hits the `0 / 0` discard-ratio division and raises. -/
noncomputable def testImg : Img := ⟨1, 1, fun _ _ => 0⟩

/-- A nonzero 1×1 image, on which `compress_dwt` genuinely returns. -/
noncomputable def oneImg : Img := ⟨1, 1, fun _ _ => 5⟩

theorem testImg_levels : dwtLevels testImg = 0 := by
  simp [dwtLevels, testImg, Nat.log2_eq_log_two, Nat.log_one_right]

theorem oneImg_levels : dwtLevels oneImg = 0 := by
  simp [dwtLevels, oneImg, Nat.log2_eq_log_two, Nat.log_one_right]

theorem testImg_forward :
    forwardSteps (dwtPad testImg) (dwtPad testImg).h (dwtPad testImg).w (dwtLevels testImg) =
      .ok (dwtPad testImg) := by
  rw [testImg_levels]
  rfl

theorem oneImg_forward :
    forwardSteps (dwtPad oneImg) (dwtPad oneImg).h (dwtPad oneImg).w (dwtLevels oneImg) =
      .ok (dwtPad oneImg) := by
  rw [oneImg_levels]
  rfl

theorem testImg_count0 : countNonzero (dwtPad testImg) = 0 := by
  simp [countNonzero, dwtPad, testImg_levels, padEdge, padAmount, testImg, List.range_succ]

theorem oneImg_count : countNonzero (dwtPad oneImg) ≠ 0 := by
  simp [countNonzero, dwtPad, oneImg_levels, padEdge, padAmount, oneImg, List.range_succ]

/-- The shape of a successful forward decomposition equals the padded shape. -/
theorem forward_coeffs_shape (img : Img) (coeffs : Img)
    (hc : forwardSteps (dwtPad img) (dwtPad img).h (dwtPad img).w (dwtLevels img) =
      .ok coeffs) :
    coeffs.h = (dwtPad img).h ∧ coeffs.w = (dwtPad img).w := by
  have hT : 0 < 2 ^ dwtLevels img := Nat.pos_pow_of_pos _ (by norm_num)
  obtain ⟨c2, hc2, hh2, hw2⟩ :=
    forwardSteps_ok (dwtPad img) (dwtPad img).h (dwtPad img).w (dwtLevels img)
      (padAmount_dvd img.h _ hT) (padAmount_dvd img.w _ hT)
  rw [hc] at hc2
  obtain rfl : coeffs = c2 := Except.ok.inj hc2
  exact ⟨hh2, hw2⟩

/-- Amended claim C1: neither codec validates `quality` up front.
`compress_dct` fails only at `quality = 0` (`ZeroDivisionError` inside the
scaling) and returns a reconstruction for every other quality, including
qualities above 100.  `compress_dwt` always fails for `quality < 0` or
`quality > 100` (`ValueError` raised inside `np.percentile`); for `quality`
in `[0, 100]` — including `quality = 0` — it returns a reconstruction
whenever the decomposed coefficient grid is not identically zero, and raises
`ZeroDivisionError` (the `0 / 0` discard-ratio computation in its logging)
when the grid is identically zero. -/
theorem compress_quality_validation (img : Img) (q : ℤ) (hh : 1 ≤ img.h) (hw : 1 ≤ img.w) :
    ((compress_dct img q).isOk = true ↔ q ≠ 0) ∧
    ((compress_dwt img q).isOk = true → 0 ≤ q ∧ q ≤ 100) ∧
    (∀ coeffs,
      forwardSteps (dwtPad img) (dwtPad img).h (dwtPad img).w (dwtLevels img) = .ok coeffs →
      countNonzero coeffs ≠ 0 → 0 ≤ q → q ≤ 100 → (compress_dwt img q).isOk = true) := by
  have hmin : ¬ min img.h img.w = 0 := by omega
  refine ⟨?_, ?_, ?_⟩
  · unfold compress_dct
    by_cases hq : q = 0
    · simp [hq, Except.isOk, Except.toBool]
    · simp [hq, Except.isOk, Except.toBool]
  · have hT : 0 < 2 ^ dwtLevels img := Nat.pos_pow_of_pos _ (by norm_num)
    obtain ⟨coeffs, hc, hch, hcw⟩ :=
      forwardSteps_ok (dwtPad img) (dwtPad img).h (dwtPad img).w (dwtLevels img)
        (padAmount_dvd img.h _ hT) (padAmount_dvd img.w _ hT)
    unfold compress_dwt
    rw [if_neg hmin]
    simp only [hc]
    by_cases hr : (0 : ℤ) ≤ 100 - q ∧ (100 : ℤ) - q ≤ 100
    · intro _
      omega
    · rw [if_neg hr]
      intro habs
      exact absurd habs (by simp [Except.isOk, Except.toBool])
  · intro coeffs hc hcnt hq0 hq1
    unfold compress_dwt
    rw [if_neg hmin]
    simp only [hc]
    rw [if_pos (⟨by omega, by omega⟩ : (0 : ℤ) ≤ 100 - q ∧ (100 : ℤ) - q ≤ 100)]
    rw [if_neg hcnt]
    rfl

/-- Witness for the amended claim C1 at the nonzero 1×1 image and quality 50:
the inner success conjunct is instantiated non-vacuously. -/
theorem compress_quality_validation_witness :
    1 ≤ oneImg.h ∧ 1 ≤ oneImg.w ∧
      forwardSteps (dwtPad oneImg) (dwtPad oneImg).h (dwtPad oneImg).w (dwtLevels oneImg) =
        .ok (dwtPad oneImg) ∧
      countNonzero (dwtPad oneImg) ≠ 0 ∧
      ((compress_dct oneImg 50).isOk = true ↔ (50 : ℤ) ≠ 0) ∧
      ((compress_dwt oneImg 50).isOk = true → (0 : ℤ) ≤ 50 ∧ (50 : ℤ) ≤ 100) ∧
      (compress_dwt oneImg 50).isOk = true :=
  ⟨by decide, by decide, oneImg_forward, oneImg_count,
    (compress_quality_validation oneImg 50 (by decide) (by decide)).1,
    (compress_quality_validation oneImg 50 (by decide) (by decide)).2.1,
    (compress_quality_validation oneImg 50 (by decide) (by decide)).2.2 (dwtPad oneImg)
      oneImg_forward oneImg_count (by decide) (by decide)⟩

/-- Counterexample to claim C1 as stated: at out-of-range qualities a
reconstruction IS produced — `compress_dct` succeeds at quality 101, and
`compress_dwt` succeeds at quality 0 on a (nonzero) image. -/
theorem compress_quality_counterexample :
    (compress_dct testImg 101).isOk = true ∧ (compress_dwt oneImg 0).isOk = true := by
  constructor
  · unfold compress_dct
    rw [if_neg (by decide : ¬ (101 : ℤ) = 0)]
    rfl
  · unfold compress_dwt
    rw [if_neg (by decide : ¬ min oneImg.h oneImg.w = 0)]
    simp only [oneImg_forward]
    rw [if_pos (by decide : (0 : ℤ) ≤ 100 - 0 ∧ (100 : ℤ) - 0 ≤ 100)]
    rw [if_neg oneImg_count]
    rfl

/-- Amended claim C5: both codecs pad with the minimal non-negative padding
making the dimensions multiples of the tile multiple, and the padding
replicates the nearest edge sample.  `compress_dct` always returns a
reconstruction of exactly the input shape; `compress_dwt` does so whenever
its decomposed coefficient grid is not identically zero (an identically zero
grid instead raises `ZeroDivisionError` in the discard-ratio logging, so
nothing is returned at all). -/
theorem shape_preservation (img : Img) (q : ℤ) (M : ℕ) (hM : 0 < M)
    (hh : 1 ≤ img.h) (hw : 1 ≤ img.w) (hq0 : 0 < q) (hq1 : q ≤ 100) :
    (∀ n : ℕ, M ∣ n + padAmount n M ∧ ∀ p : ℕ, M ∣ n + p → padAmount n M ≤ p) ∧
    (∀ i j, (padEdge img M).px i j = img.px (min i (img.h - 1)) (min j (img.w - 1))) ∧
    (∃ o, compress_dct img q = .ok o ∧ o.h = img.h ∧ o.w = img.w) ∧
    (∀ coeffs,
      forwardSteps (dwtPad img) (dwtPad img).h (dwtPad img).w (dwtLevels img) = .ok coeffs →
      countNonzero coeffs ≠ 0 →
      ∃ o, compress_dwt img q = .ok o ∧ o.h = img.h ∧ o.w = img.w) := by
  refine ⟨fun n => ⟨padAmount_dvd n M hM, fun p hp => padAmount_least n M hM p hp⟩,
    fun i j => rfl, ?_, ?_⟩
  · unfold compress_dct
    rw [if_neg (by omega : ¬ q = 0)]
    refine ⟨_, rfl, ?_, ?_⟩
    · show min (img.h + padAmount img.h 8) img.h = img.h
      omega
    · show min (img.w + padAmount img.w 8) img.w = img.w
      omega
  · intro coeffs hc hcnt
    obtain ⟨hch, hcw⟩ := forward_coeffs_shape img coeffs hc
    have hmin : ¬ min img.h img.w = 0 := by omega
    unfold compress_dwt
    rw [if_neg hmin]
    simp only [hc]
    rw [if_pos (⟨by omega, by omega⟩ : (0 : ℤ) ≤ 100 - q ∧ (100 : ℤ) - q ≤ 100)]
    rw [if_neg hcnt]
    have hsh := inverseSteps_shape (dwtPad img).h (dwtPad img).w (dwtLevels img)
      (thresholdImg coeffs q)
    refine ⟨_, rfl, ?_, ?_⟩
    · show min (inverseSteps (thresholdImg coeffs q) (dwtPad img).h (dwtPad img).w
        (dwtLevels img)).h img.h = img.h
      rw [hsh.1]
      have : (thresholdImg coeffs q).h = (dwtPad img).h := hch
      rw [this]
      show min (img.h + padAmount img.h (2 ^ dwtLevels img)) img.h = img.h
      omega
    · show min (inverseSteps (thresholdImg coeffs q) (dwtPad img).h (dwtPad img).w
        (dwtLevels img)).w img.w = img.w
      rw [hsh.2]
      have : (thresholdImg coeffs q).w = (dwtPad img).w := hcw
      rw [this]
      show min (img.w + padAmount img.w (2 ^ dwtLevels img)) img.w = img.w
      omega

/-- Witness for the amended claim C5 at the nonzero 1×1 image, tile multiple 8
and quality 50: the `compress_dwt` success conjunct is instantiated
non-vacuously. -/
theorem shape_preservation_witness :
    0 < 8 ∧ 1 ≤ oneImg.h ∧ 1 ≤ oneImg.w ∧ (0 : ℤ) < 50 ∧ (50 : ℤ) ≤ 100 ∧
      forwardSteps (dwtPad oneImg) (dwtPad oneImg).h (dwtPad oneImg).w (dwtLevels oneImg) =
        .ok (dwtPad oneImg) ∧
      countNonzero (dwtPad oneImg) ≠ 0 ∧
      ((∀ n : ℕ, 8 ∣ n + padAmount n 8 ∧ ∀ p : ℕ, 8 ∣ n + p → padAmount n 8 ≤ p) ∧
        (∀ i j, (padEdge oneImg 8).px i j =
          oneImg.px (min i (oneImg.h - 1)) (min j (oneImg.w - 1))) ∧
        (∃ o, compress_dct oneImg 50 = .ok o ∧ o.h = oneImg.h ∧ o.w = oneImg.w) ∧
        (∃ o, compress_dwt oneImg 50 = .ok o ∧ o.h = oneImg.h ∧ o.w = oneImg.w)) := by
  refine ⟨by decide, by decide, by decide, by decide, by decide,
    oneImg_forward, oneImg_count, ?_⟩
  have T := shape_preservation oneImg 50 8 (by decide) (by decide) (by decide)
    (by decide) (by decide)
  exact ⟨T.1, T.2.1, T.2.2.1, T.2.2.2 (dwtPad oneImg) oneImg_forward oneImg_count⟩

/-- Counterexample to claim C5 as stated: at the all-zero 1×1 image (a valid
image) and the valid quality 50, `compress_dwt` raises `ZeroDivisionError`
(the `0 / 0` discard-ratio division) instead of returning a reconstruction,
so `compress_dwt(image, q).shape == image.shape` fails to hold there. -/
theorem shape_preservation_counterexample :
    compress_dwt testImg 50 = .error "ZeroDivisionError: division by zero" ∧
      ∀ o, ¬ compress_dwt testImg 50 = .ok o := by
  have herr : compress_dwt testImg 50 = .error "ZeroDivisionError: division by zero" := by
    unfold compress_dwt
    rw [if_neg (by decide : ¬ min testImg.h testImg.w = 0)]
    simp only [testImg_forward]
    rw [if_pos (by decide : (0 : ℤ) ≤ 100 - 50 ∧ (100 : ℤ) - 50 ≤ 100)]
    rw [if_pos testImg_count0]
  refine ⟨herr, fun o ho => ?_⟩
  rw [herr] at ho
  exact Except.noConfusion ho

/-- Claim C6: in `compress_dwt` the threshold is the `(100 - quality)`-th
percentile of the absolute values of all coefficients of the padded
decomposition, exactly the coefficients strictly below it (in absolute value)
are zeroed, the others are unchanged, and the inverse pyramid then runs on the
thresholded coefficients.  (When the coefficient grid is identically zero the
source instead raises `ZeroDivisionError` in its discard-ratio logging after
the thresholding and before the inverse, hence the nondegeneracy
hypothesis on the final conjunct.) -/
theorem dwt_threshold_spec (img : Img) (q : ℤ) (hh : 1 ≤ img.h) (hw : 1 ≤ img.w)
    (hq0 : 0 < q) (hq1 : q ≤ 100) :
    ∀ coeffs,
      forwardSteps (dwtPad img) (dwtPad img).h (dwtPad img).w (dwtLevels img) = .ok coeffs →
      countNonzero coeffs ≠ 0 →
      (dwtThresholdValue coeffs q = npPercentile (absFlatten coeffs) ((100 - q : ℤ) : ℝ) ∧
        (∀ i j, |coeffs.px i j| < dwtThresholdValue coeffs q →
          (thresholdImg coeffs q).px i j = 0) ∧
        (∀ i j, ¬ |coeffs.px i j| < dwtThresholdValue coeffs q →
          (thresholdImg coeffs q).px i j = coeffs.px i j) ∧
        compress_dwt img q = .ok (clipImg (cropImg
          (inverseSteps (thresholdImg coeffs q) (dwtPad img).h (dwtPad img).w (dwtLevels img))
          img.h img.w))) := by
  intro coeffs hc hcnt
  refine ⟨rfl, ?_, ?_, ?_⟩
  · intro i j hij
    simp [thresholdImg, hij]
  · intro i j hij
    simp [thresholdImg, hij]
  · have hmin : ¬ min img.h img.w = 0 := by omega
    unfold compress_dwt
    rw [if_neg hmin]
    simp only [hc]
    rw [if_pos (⟨by omega, by omega⟩ : (0 : ℤ) ≤ 100 - q ∧ (100 : ℤ) - q ≤ 100)]
    rw [if_neg hcnt]

/-- Witness for C6 at the nonzero 1×1 image and quality 50, with the
nondegeneracy hypotheses discharged concretely. -/
theorem dwt_threshold_spec_witness :
    1 ≤ oneImg.h ∧ 1 ≤ oneImg.w ∧ (0 : ℤ) < 50 ∧ (50 : ℤ) ≤ 100 ∧
      forwardSteps (dwtPad oneImg) (dwtPad oneImg).h (dwtPad oneImg).w (dwtLevels oneImg) =
        .ok (dwtPad oneImg) ∧
      countNonzero (dwtPad oneImg) ≠ 0 ∧
      (dwtThresholdValue (dwtPad oneImg) 50 =
          npPercentile (absFlatten (dwtPad oneImg)) ((100 - 50 : ℤ) : ℝ) ∧
        (∀ i j, |(dwtPad oneImg).px i j| < dwtThresholdValue (dwtPad oneImg) 50 →
          (thresholdImg (dwtPad oneImg) 50).px i j = 0) ∧
        (∀ i j, ¬ |(dwtPad oneImg).px i j| < dwtThresholdValue (dwtPad oneImg) 50 →
          (thresholdImg (dwtPad oneImg) 50).px i j = (dwtPad oneImg).px i j) ∧
        compress_dwt oneImg 50 = .ok (clipImg (cropImg
          (inverseSteps (thresholdImg (dwtPad oneImg) 50) (dwtPad oneImg).h (dwtPad oneImg).w
            (dwtLevels oneImg))
          oneImg.h oneImg.w))) :=
  ⟨by decide, by decide, by decide, by decide, oneImg_forward, oneImg_count,
    dwt_threshold_spec oneImg 50 (by decide) (by decide) (by decide) (by decide)
      (dwtPad oneImg) oneImg_forward oneImg_count⟩

/-- Claim C7: every sample of every reconstructed image returned by
`compress_dct` or `compress_dwt` lies in the closed interval `[0, 255]`
(whatever either codec returns is clipped; runs that raise return nothing). -/
theorem reconstruction_range (img : Img) (q : ℤ) (hq0 : 0 < q) (hq1 : q ≤ 100) :
    (∀ o, compress_dct img q = .ok o → ∀ i j, 0 ≤ o.px i j ∧ o.px i j ≤ 255) ∧
    (∀ o, compress_dwt img q = .ok o → ∀ i j, 0 ≤ o.px i j ∧ o.px i j ≤ 255) := by
  have hclip : ∀ (c : Img) (i j : ℕ), 0 ≤ (clipImg c).px i j ∧ (clipImg c).px i j ≤ 255 := by
    intro c i j
    exact ⟨le_min (le_max_right _ _) (by norm_num), min_le_right _ _⟩
  constructor
  · intro o ho
    unfold compress_dct at ho
    rw [if_neg (by omega : ¬ q = 0)] at ho
    obtain rfl := Except.ok.inj ho
    exact hclip _
  · intro o ho
    unfold compress_dwt at ho
    by_cases hmin : min img.h img.w = 0
    · rw [if_pos hmin] at ho
      exact Except.noConfusion ho
    · rw [if_neg hmin] at ho
      have hT : 0 < 2 ^ dwtLevels img := Nat.pos_pow_of_pos _ (by norm_num)
      obtain ⟨coeffs, hc, hch, hcw⟩ :=
        forwardSteps_ok (dwtPad img) (dwtPad img).h (dwtPad img).w (dwtLevels img)
          (padAmount_dvd img.h _ hT) (padAmount_dvd img.w _ hT)
      simp only [hc] at ho
      by_cases hr : (0 : ℤ) ≤ 100 - q ∧ (100 : ℤ) - q ≤ 100
      · rw [if_pos hr] at ho
        by_cases hcz : countNonzero coeffs = 0
        · rw [if_pos hcz] at ho
          exact Except.noConfusion ho
        · rw [if_neg hcz] at ho
          obtain rfl := Except.ok.inj ho
          exact hclip _
      · rw [if_neg hr] at ho
        exact Except.noConfusion ho

/-- Witness for C7 at the nonzero 1×1 image and quality 50; the `compress_dwt`
conjunct is exercised non-vacuously through the success equation of
`dwt_threshold_spec`-independent helpers. -/
theorem reconstruction_range_witness :
    (0 : ℤ) < 50 ∧ (50 : ℤ) ≤ 100 ∧ (compress_dwt oneImg 50).isOk = true ∧
      ((∀ o, compress_dct oneImg 50 = .ok o → ∀ i j, 0 ≤ o.px i j ∧ o.px i j ≤ 255) ∧
        (∀ o, compress_dwt oneImg 50 = .ok o → ∀ i j, 0 ≤ o.px i j ∧ o.px i j ≤ 255)) := by
  refine ⟨by decide, by decide, ?_, reconstruction_range oneImg 50 (by decide) (by decide)⟩
  unfold compress_dwt
  rw [if_neg (by decide : ¬ min oneImg.h oneImg.w = 0)]
  simp only [oneImg_forward]
  rw [if_pos (by decide : (0 : ℤ) ≤ 100 - 50 ∧ (100 : ℤ) - 50 ≤ 100)]
  rw [if_neg oneImg_count]
  rfl
